import Mathlib

/-!
Verification of the pathfinder chain-synchronization core.

Shallow embedding of `src/crates/pathfinder/src/state/sync.rs` (the sync
driver: `l1_update`, `l1_reorg`, `l2_update`, `l2_reorg`,
`update_starknet_state`, `deploy_contract`, and the event loop of `sync`)
and of `src/crates/p2p/src/client/peer_agnostic.rs` (the header stream
request shaping and the `PeersWithCapability` TTL cache).

Field elements (block hashes, state roots, class hashes) are opaque
252-bit values used only for equality; they are embedded as `Nat`.  The
transactional store is embedded as explicit state passing over a `Store`
record; a database transaction that returns an error commits nothing, so
fallible operations return `Except` and an error result leaves the
caller's store untouched.  Storage-table primitives and the Merkle-tree
primitives live outside the sync core (they are collaborators of the
code under verification); they are modelled from the spec, with the
contract-state hash function and the tree-apply function kept abstract
as parameters.
-/

/-- Opaque 252-bit field element; only tested for equality. -/
abbrev Felt := Nat

/-- The distinguished genesis block number. -/
def GENESIS : Nat := 0

/-- `StateUpdateLog`: `(block_number, global_root, eth_origin)` as observed
from L1.  The Ethereum origin is opaque to the sync core. -/
structure StateUpdateLog where
  block_number : Nat
  global_root : Felt
  origin : Nat
deriving DecidableEq, Repr

/-- `StarknetBlock`: `(number, hash, root, timestamp)` as stored in
`StarknetBlocksTable`. -/
structure StarknetBlock where
  number : Nat
  hash : Felt
  root : Felt
  timestamp : Nat
deriving DecidableEq, Repr

/-- A sequencer `reply::Block` as consumed by `l2_update`.  In the source
the number, hash and root fields are `Option`s that are only `None` for
pending-query blocks, which never reach `l2_update` (the source unwraps
them, with a comment asserting safety); they are embedded as plain
fields. -/
structure Block where
  block_number : Nat
  block_hash : Felt
  parent_block_hash : Felt
  state_root : Felt
  timestamp : Nat
  transactions : List Nat
  transaction_receipts : List Nat
deriving DecidableEq, Repr

/-- A deployed contract of a state diff: `(address, class hash)`. -/
structure DeployedContract where
  address : Nat
  hash : Felt
deriving DecidableEq, Repr

/-- A contract update of a state diff: the target address and its storage
writes. -/
structure ContractUpdate where
  address : Nat
  storage_updates : List (Nat × Nat)
deriving DecidableEq, Repr

/-- `StateUpdate` (state diff): deployed contracts and contract updates. -/
structure StateUpdate where
  deployed_contracts : List DeployedContract
  contract_updates : List ContractUpdate
deriving DecidableEq, Repr

/-- Modelled from the spec: the transactional store.  One table per
component consumed by the driver: `L1StateTable` (keyed by block
number), `StarknetBlocksTable` (keyed by number), the `l1_l2_head`
reference of `RefsTable`, `ContractsStateTable` (state hash, class hash,
contract root; keyed by state hash), `ContractsTable` (address, class
hash; keyed by address), `ContractCodeTable` (a set of class hashes) and
`StarknetTransactionsTable` (block hash, block number, transaction and
receipt pairs; keyed by block number). -/
structure Store where
  l1 : List StateUpdateLog
  l2 : List StarknetBlock
  l1l2Head : Option Nat
  contractsState : List (Felt × Felt × Felt)
  contracts : List (Nat × Felt)
  contractCode : List Felt
  txs : List (Felt × Nat × List (Nat × Nat))
deriving DecidableEq, Repr

/-- Modelled from the spec: keyed insert into the L1 log table (a relational
table keyed by block number; re-inserting a key replaces the row). -/
def insertLog : List StateUpdateLog → StateUpdateLog → List StateUpdateLog
  | [], u => [u]
  | x :: xs, u =>
    if x.block_number = u.block_number then u :: xs else x :: insertLog xs u

/-- Modelled from the spec: point lookup in the L1 log table. -/
def findLog (l : List StateUpdateLog) (n : Nat) : Option StateUpdateLog :=
  l.find? (fun u => u.block_number == n)

/-- Modelled from the spec: keyed insert into the L2 block table. -/
def insertBlockEntry : List StarknetBlock → StarknetBlock → List StarknetBlock
  | [], b => [b]
  | x :: xs, b => if x.number = b.number then b :: xs else x :: insertBlockEntry xs b

/-- Modelled from the spec: point lookup in the L2 block table. -/
def findBlock (l : List StarknetBlock) (n : Nat) : Option StarknetBlock :=
  l.find? (fun b => b.number == n)

/-- Modelled from the spec: the `Latest` query of `StarknetBlocksTable`:
the stored block of greatest number, if any. -/
def latestBlockEntry : List StarknetBlock → Option StarknetBlock
  | [] => none
  | b :: rest =>
    match latestBlockEntry rest with
    | none => some b
    | some c => if b.number < c.number then some c else some b

/-- `L1StateTable::get` at a concrete block number. -/
def l1Get (s : Store) (n : Nat) : Option StateUpdateLog :=
  findLog s.l1 n

/-- `L1StateTable::get_root` at a concrete block number. -/
def l1GetRoot (s : Store) (n : Nat) : Option Felt :=
  (l1Get s n).map (fun u => u.global_root)

/-- `L1StateTable::insert`. -/
def l1Insert (s : Store) (u : StateUpdateLog) : Store :=
  { s with l1 := insertLog s.l1 u }

/-- `StarknetBlocksTable::get` at a concrete block number. -/
def l2Get (s : Store) (n : Nat) : Option StarknetBlock :=
  findBlock s.l2 n

/-- The `root` of the stored L2 block at a height, as read by the
reconciler walk of `l1_update`. -/
def l2GetRoot (s : Store) (n : Nat) : Option Felt :=
  (l2Get s n).map (fun b => b.root)

/-- `StarknetBlocksTable::get(Latest)`. -/
def l2Latest (s : Store) : Option StarknetBlock :=
  latestBlockEntry s.l2

/-- `StarknetBlocksTable::insert`. -/
def l2Insert (s : Store) (b : StarknetBlock) : Store :=
  { s with l2 := insertBlockEntry s.l2 b }

/-- `RefsTable::set_l1_l2_head`. -/
def setHead (s : Store) (h : Option Nat) : Store :=
  { s with l1l2Head := h }

/-- Modelled from the spec: keyed upsert into `ContractsStateTable`
(key: state hash). -/
def upsertTriple : List (Felt × Felt × Felt) → Felt → Felt → Felt → List (Felt × Felt × Felt)
  | [], k, a, b => [(k, a, b)]
  | (k0, a0, b0) :: rest, k, a, b =>
    if k0 = k then (k, a, b) :: rest else (k0, a0, b0) :: upsertTriple rest k a b

/-- Modelled from the spec: keyed upsert into `ContractsTable`
(key: contract address). -/
def upsertPair : List (Nat × Felt) → Nat → Felt → List (Nat × Felt)
  | [], k, v => [(k, v)]
  | (k0, v0) :: rest, k, v =>
    if k0 = k then (k, v) :: rest else (k0, v0) :: upsertPair rest k v

/-- Modelled from the spec: idempotent, content-addressed insertion into
`ContractCodeTable`. -/
def codeInsert (l : List Felt) (h : Felt) : List Felt :=
  if l.contains h then l else l ++ [h]

/-- Modelled from the spec: `StarknetTransactionsTable::upsert` for one
block (key: block number). -/
def txUpsertEntry : List (Felt × Nat × List (Nat × Nat)) → Felt → Nat → List (Nat × Nat) → List (Felt × Nat × List (Nat × Nat))
  | [], h, n, d => [(h, n, d)]
  | (h0, n0, d0) :: rest, h, n, d =>
    if n0 = n then (h, n, d) :: rest else (h0, n0, d0) :: txUpsertEntry rest h n d

/-- `StarknetTransactionsTable::upsert` lifted to the store. -/
def txUpsert (s : Store) (h : Felt) (n : Nat) (d : List (Nat × Nat)) : Store :=
  { s with txs := txUpsertEntry s.txs h n d }

/-- `ContractCodeTable::insert_compressed` lifted to the store. -/
def contractCodeInsert (s : Store) (h : Felt) : Store :=
  { s with contractCode := codeInsert s.contractCode h }

/-- `expected_next` of the composite-head reconciler: current head plus
one, or `GENESIS` when the head is absent. -/
def expectedNext (head : Option Nat) : Nat :=
  match head with
  | some h => h + 1
  | none => GENESIS

/-- The reconciler walk of `l1_update`: for each inserted log in order,
look up the local L2 root at that height; on a match record the log's
block number as the tentative next head and continue, otherwise stop and
return the accumulator. -/
def reconcileWalk (s : Store) : List StateUpdateLog → Option Nat → Option Nat
  | [], next_head => next_head
  | u :: rest, next_head =>
    match l2GetRoot s u.block_number with
    | some r =>
      if r = u.global_root then reconcileWalk s rest (some u.block_number)
      else next_head
    | none => next_head

/-- `l1_update`: insert every log, then reconcile the composite head in
the L1-forward direction, all in one transaction. -/
def l1_update (s : Store) (updates : List StateUpdateLog) : Store :=
  let s1 := updates.foldl l1Insert s
  let expected := expectedNext s1.l1l2Head
  match updates.head? with
  | some u =>
    if u.block_number = expected then
      match reconcileWalk s1 updates none with
      | some next_head => setHead s1 (some next_head)
      | none => s1
    else s1
  | none => s1

/-- `l1_reorg`: delete every L1 log from the tail up, and retract the
composite head when it reaches into the deleted range. -/
def l1_reorg (s : Store) (reorg_tail : Nat) : Store :=
  let s1 : Store := { s with l1 := s.l1.filter (fun u => u.block_number < reorg_tail) }
  match s1.l1l2Head with
  | some head =>
    if reorg_tail ≤ head then
      setHead s1 (if reorg_tail = GENESIS then none else some (reorg_tail - 1))
    else s1
  | none => s1

/-- `l2_reorg`: delete every L2 block from the tail up, and retract the
composite head when it reaches into the deleted range.  The source notes
that the state trees are not yet cleaned up here. -/
def l2_reorg (s : Store) (reorg_tail : Nat) : Store :=
  let s1 : Store := { s with l2 := s.l2.filter (fun b => b.number < reorg_tail) }
  match s1.l1l2Head with
  | some head =>
    if reorg_tail ≤ head then
      setHead s1 (if reorg_tail = GENESIS then none else some (reorg_tail - 1))
    else s1
  | none => s1

/-- Modelled from the spec: the global Merkle state tree is out of scope;
a loaded tree is its root together with the ordered pending writes
(address, contract state hash) made through `set`. -/
structure GlobalStateTree where
  root : Felt
  writes : List (Nat × Felt)
deriving DecidableEq, Repr

/-- Modelled from the spec: `GlobalStateTree::load`. -/
def GlobalStateTree.load (root : Felt) : GlobalStateTree :=
  { root := root, writes := [] }

/-- Modelled from the spec: `GlobalStateTree::set` records a pending
write. -/
def GlobalStateTree.set (t : GlobalStateTree) (address : Nat) (value : Felt) : GlobalStateTree :=
  { t with writes := t.writes ++ [(address, value)] }

/-- Modelled from the spec: `GlobalStateTree::apply` flushes the pending
writes and returns the new root; the Merkle root computation itself is
abstract, supplied as `applyFn`. -/
def GlobalStateTree.apply (applyFn : Felt → List (Nat × Felt) → Felt) (t : GlobalStateTree) : Felt :=
  applyFn t.root t.writes

/-- `deploy_contract`: contract root starts at `ZERO`; the contract state
hash is `H(class_hash, ZERO)` (`calculate_contract_state_hash`, abstract
here); the global tree gets the write and both contract tables get an
upsert. -/
def deploy_contract (H : Felt → Felt → Felt) (s : Store) (t : GlobalStateTree)
    (c : DeployedContract) : Store × GlobalStateTree :=
  let contract_root : Felt := 0
  let state_hash := H c.hash contract_root
  let t1 := t.set c.address state_hash
  let s1 : Store := { s with contractsState := upsertTriple s.contractsState state_hash c.hash contract_root }
  let s2 : Store := { s1 with contracts := upsertPair s1.contracts c.address c.hash }
  (s2, t1)

/-- The deployed-contracts loop of `update_starknet_state`. -/
def deployLoop (H : Felt → Felt → Felt) : Store → GlobalStateTree → List DeployedContract → Store × GlobalStateTree
  | s, t, [] => (s, t)
  | s, t, c :: rest =>
    let p := deploy_contract H s t c
    deployLoop H p.1 p.2 rest

/-- The contract-updates loop of `update_starknet_state`:
`update_contract_state` (out of scope, abstract as `updCS`) yields the
new contract state hash, which is written into the global tree. -/
def updateLoop (updCS : ContractUpdate → GlobalStateTree → Felt) : GlobalStateTree → List ContractUpdate → GlobalStateTree
  | t, [] => t
  | t, u :: rest => updateLoop updCS (t.set u.address (updCS u t)) rest

/-- `update_starknet_state`: load the latest stored global root (`ZERO`
when no block is stored), replay deploys then updates against the global
tree, apply the tree and return the new root. -/
def update_starknet_state (H : Felt → Felt → Felt)
    (applyFn : Felt → List (Nat × Felt) → Felt)
    (updCS : ContractUpdate → GlobalStateTree → Felt)
    (s : Store) (diff : StateUpdate) : Felt × Store :=
  let global_root : Felt :=
    match l2Latest s with
    | some b => b.root
    | none => 0
  let p := deployLoop H s (GlobalStateTree.load global_root) diff.deployed_contracts
  let t2 := updateLoop updCS p.2 diff.contract_updates
  (GlobalStateTree.apply applyFn t2, p.1)

/-- The errors the driver can surface: a store fault, a state-root
mismatch, or a transaction/receipt count mismatch. -/
inductive SyncError where
  | storeError
  | rootMismatch
  | txReceiptMismatch
deriving DecidableEq, Repr

/-- `l2_update`: run the state updater, insist the produced root equals
the block's `state_root` (mismatch is fatal), insert the block row,
insist transactions and receipts pair up, upsert the transaction data,
then reconcile the composite head in the L2-forward direction.  An error
aborts the transaction, so nothing of the update is committed. -/
def l2_update (H : Felt → Felt → Felt)
    (applyFn : Felt → List (Nat × Felt) → Felt)
    (updCS : ContractUpdate → GlobalStateTree → Felt)
    (s : Store) (block : Block) (state_diff : StateUpdate) : Except SyncError Store :=
  let p := update_starknet_state H applyFn updCS s state_diff
  if p.1 = block.state_root then
    let starknet_block : StarknetBlock :=
      { number := block.block_number, hash := block.block_hash,
        root := block.state_root, timestamp := block.timestamp }
    let s2 := l2Insert p.2 starknet_block
    if block.transactions.length = block.transaction_receipts.length then
      let s3 := txUpsert s2 starknet_block.hash starknet_block.number
        (block.transactions.zip block.transaction_receipts)
      if expectedNext s3.l1l2Head = starknet_block.number then
        match l1GetRoot s3 starknet_block.number with
        | some r =>
          if r = starknet_block.root then
            Except.ok (setHead s3 (some starknet_block.number))
          else Except.ok s3
        | none => Except.ok s3
      else Except.ok s3
    else Except.error SyncError.txReceiptMismatch
  else Except.error SyncError.rootMismatch

/-- L1 producer events, including the channel-closed case the driver
observes as `None`. -/
inductive L1Event where
  | update (updates : List StateUpdateLog)
  | reorg (reorg_tail : Nat)
  | queryUpdate (block : Nat)
  | closed
deriving DecidableEq, Repr

/-- L2 producer events, including the channel-closed case. -/
inductive L2Event where
  | update (block : Block) (diff : StateUpdate)
  | reorg (reorg_tail : Nat)
  | newContract (hash : Felt)
  | queryHash (block : Nat)
  | queryContractExistence (hashes : List Felt)
  | closed
deriving DecidableEq, Repr

/-- One event as selected by the driver loop. -/
inductive SyncEvent where
  | l1 (e : L1Event)
  | l2 (e : L2Event)
deriving DecidableEq, Repr

/-- The outcome of one driver loop iteration: exit the loop normally
(`done`, which corresponds to the driver returning `Ok`), continue with
a new store, or abort with a fatal error. -/
inductive StepResult where
  | done
  | cont (s : Store)
  | fatal (e : SyncError)
deriving DecidableEq, Repr

/-- One iteration of the `sync` driver event loop.  Query events reply
over their channel and leave the store unchanged; a closed channel makes
the driver respawn the producer and continue; a failed `l2_update` is
fatal. -/
def syncStep (H : Felt → Felt → Felt)
    (applyFn : Felt → List (Nat × Felt) → Felt)
    (updCS : ContractUpdate → GlobalStateTree → Felt)
    (s : Store) (ev : SyncEvent) : StepResult :=
  match ev with
  | SyncEvent.l1 (L1Event.update us) => StepResult.cont (l1_update s us)
  | SyncEvent.l1 (L1Event.reorg t) => StepResult.cont (l1_reorg s t)
  | SyncEvent.l1 (L1Event.queryUpdate _) => StepResult.cont s
  | SyncEvent.l1 L1Event.closed => StepResult.cont s
  | SyncEvent.l2 (L2Event.update b d) =>
    match l2_update H applyFn updCS s b d with
    | Except.ok s1 => StepResult.cont s1
    | Except.error e => StepResult.fatal e
  | SyncEvent.l2 (L2Event.reorg t) => StepResult.cont (l2_reorg s t)
  | SyncEvent.l2 (L2Event.newContract h) => StepResult.cont (contractCodeInsert s h)
  | SyncEvent.l2 (L2Event.queryHash _) => StepResult.cont s
  | SyncEvent.l2 (L2Event.queryContractExistence _) => StepResult.cont s
  | SyncEvent.l2 L2Event.closed => StepResult.cont s

/-- The store visible after one driver iteration: a fatal error unwinds
the transaction, leaving the prior store. -/
def stepStore (H : Felt → Felt → Felt)
    (applyFn : Felt → List (Nat × Felt) → Felt)
    (updCS : ContractUpdate → GlobalStateTree → Felt)
    (s : Store) (ev : SyncEvent) : Store :=
  match syncStep H applyFn updCS s ev with
  | StepResult.cont s1 => s1
  | _ => s

/-- Wire direction of a p2p iteration request. -/
inductive Direction where
  | forward
  | backward
deriving DecidableEq, Repr

/-- The `Iteration` of a p2p sync request. -/
structure Iteration where
  start : Nat
  direction : Direction
  limit : Nat
  step : Nat
deriving DecidableEq, Repr

/-- A p2p block-headers sync request. -/
structure BlockHeadersRequest where
  iteration : Iteration
deriving DecidableEq, Repr

/-- The bound/direction normalization at the top of
`Client::header_stream`: when `reverse` the bounds are swapped and the
direction is `Backward`, otherwise they are kept and the direction is
`Forward`.  Returns `(start, stop, direction)` as used by the stream. -/
def header_stream_init (start stop : Nat) (reverse : Bool) : Nat × Nat × Direction :=
  match reverse with
  | true => (stop, start, Direction.backward)
  | false => (start, stop, Direction.forward)

/-- The request built for one peer inside `header_stream`, from the
current mutable `start`, the fixed `stop` and the fixed direction:
`limit = max start stop - min start stop`, `step = 1`. -/
def headerRequest (start stop : Nat) (direction : Direction) : BlockHeadersRequest :=
  { iteration :=
    { start := start, direction := direction,
      limit := max start stop - min start stop, step := 1 } }

/-- How `header_stream` advances its `start` after yielding one header:
plus one going forward, to the parent (saturating at genesis) going
backward. -/
def headerAdvance (start : Nat) (direction : Direction) : Nat :=
  match direction with
  | Direction.forward => start + 1
  | Direction.backward => start - 1

/-- `PeersWithCapability`: capability name to peer set, with one shared
`last_update` clock and a TTL.  Peers are opaque identifiers; the
`Instant` clock is a natural-number timestamp threaded explicitly. -/
structure PeersWithCapability where
  set : List (String × List Nat)
  last_update : Nat
  timeout : Nat
deriving DecidableEq, Repr

/-- Lookup in the capability map. -/
def capLookup : List (String × List Nat) → String → Option (List Nat)
  | [], _ => none
  | (c, ps) :: rest, cap => if c = cap then some ps else capLookup rest cap

/-- Keyed insert into the capability map (`HashMap::insert` replaces the
entry for an existing key). -/
def capInsert : List (String × List Nat) → String → List Nat → List (String × List Nat)
  | [], cap, ps => [(cap, ps)]
  | (c, q) :: rest, cap, ps =>
    if c = cap then (cap, ps) :: rest else (c, q) :: capInsert rest cap ps

/-- `PeersWithCapability::get` at clock reading `now`: `None` once the
elapsed time exceeds the timeout, otherwise the stored set for the
capability.  It does not clear on expiry; the caller repopulates. -/
def PeersWithCapability.get (pc : PeersWithCapability) (now : Nat) (capability : String) : Option (List Nat) :=
  if pc.timeout < now - pc.last_update then none
  else capLookup pc.set capability

/-- `PeersWithCapability::update` at clock reading `now`: reset the
shared clock and replace the entry for the capability. -/
def PeersWithCapability.update (pc : PeersWithCapability) (now : Nat) (capability : String) (peers : List Nat) : PeersWithCapability :=
  { pc with last_update := now, set := capInsert pc.set capability peers }

/-- Both stored sides agree at one height: an L2 block and an L1 log are
stored there and the block's root equals the log's global root. -/
def agreeAt (s : Store) (h : Nat) : Bool :=
  match l2Get s h, l1Get s h with
  | some b, some u => b.root == u.global_root
  | _, _ => false

/-- Both stored sides agree at every height from `GENESIS` through `n`. -/
def matchThrough (s : Store) (n : Nat) : Bool :=
  (List.range (n + 1)).all (agreeAt s)

/-- The composite-head invariant of the store: a present head value is
backed by agreeing L1 and L2 rows at every height up to it. -/
def HeadInv (s : Store) : Prop :=
  ∀ n, s.l1l2Head = some n → matchThrough s n = true

/-- A log list carries consecutive block numbers starting at `f`. -/
def consecutiveFrom : Nat → List StateUpdateLog → Bool
  | _, [] => true
  | f, u :: rest => u.block_number == f && consecutiveFrom (f + 1) rest

/-- A log list carries consecutive block numbers (each one more than its
predecessor). -/
def logsConsecutive (logs : List StateUpdateLog) : Bool :=
  match logs with
  | [] => true
  | u :: _ => consecutiveFrom u.block_number logs

/-- The last element of a list of block numbers, if any. -/
def lastBn : List Nat → Option Nat
  | [] => none
  | x :: xs =>
    match lastBn xs with
    | some y => some y
    | none => some x

/-- One inserted log agrees with the locally stored L2 block at its
height. -/
def agreeLogB (s : Store) (u : StateUpdateLog) : Bool :=
  l2GetRoot s u.block_number == some u.global_root

/-- Follows the claim's words: the composite head that the L1-forward
reconciliation leaves behind.  Only when the first inserted log sits at
`expected_next` does the walk run; it keeps the agreeing prefix of the
inserted logs and moves the head to the last agreeing height, leaving
the head alone when nothing agreed. -/
def specL1ForwardHead (s : Store) (logs : List StateUpdateLog) : Option Nat :=
  match logs.head? with
  | some u =>
    if u.block_number = expectedNext s.l1l2Head then
      match lastBn ((logs.takeWhile (agreeLogB s)).map (fun v => v.block_number)) with
      | some nh => some nh
      | none => s.l1l2Head
    else s.l1l2Head
  | none => s.l1l2Head

/-- Follows the claim's words: the composite head left behind by a reorg
with tail `T`.  When the prior head reaches into the deleted range it is
retracted to `T - 1`, or to absent when `T` is genesis; otherwise it is
untouched. -/
def specRetractedHead (head : Option Nat) (reorg_tail : Nat) : Option Nat :=
  match head with
  | some h =>
    if reorg_tail ≤ h then
      if reorg_tail = GENESIS then none else some (reorg_tail - 1)
    else some h
  | none => none

/-- Follows the claim's words: the tree writes contributed by the
deployed contracts, in order — each deploys to `H(class_hash, ZERO)` at
its address. -/
def specDeployWrites (H : Felt → Felt → Felt) (cs : List DeployedContract) : List (Nat × Felt) :=
  cs.map (fun c => (c.address, H c.hash 0))

/-- Follows the claim's words: the `ContractsStateTable` rows after the
deployed contracts were upserted, in order. -/
def specContractsStateRows (H : Felt → Felt → Felt)
    (init : List (Felt × Felt × Felt)) (cs : List DeployedContract) : List (Felt × Felt × Felt) :=
  cs.foldl (fun acc c => upsertTriple acc (H c.hash 0) c.hash 0) init

/-- Follows the claim's words: the `ContractsTable` rows after the
deployed contracts were upserted, in order. -/
def specContractsRows (init : List (Nat × Felt)) (cs : List DeployedContract) : List (Nat × Felt) :=
  cs.foldl (fun acc c => upsertPair acc c.address c.hash) init

/-- Follows the claim's words: the new global root — load the latest
stored root (`ZERO` when no block is stored), seed the tree with the
deploy writes, replay the contract updates after them, and apply. -/
def specNewRoot (H : Felt → Felt → Felt)
    (applyFn : Felt → List (Nat × Felt) → Felt)
    (updCS : ContractUpdate → GlobalStateTree → Felt)
    (s : Store) (diff : StateUpdate) : Felt :=
  let g0 : Felt :=
    match l2Latest s with
    | some b => b.root
    | none => 0
  GlobalStateTree.apply applyFn
    (updateLoop updCS { root := g0, writes := specDeployWrites H diff.deployed_contracts }
      diff.contract_updates)

/-- The empty store, before any sync activity. -/
def emptyStore : Store :=
  { l1 := [], l2 := [], l1l2Head := none, contractsState := [], contracts := [],
    contractCode := [], txs := [] }

/-- A block whose claimed state root cannot come out of an empty store. -/
def mismatchBlock : Block :=
  { block_number := 0, block_hash := 1, parent_block_hash := 0, state_root := 7,
    timestamp := 0, transactions := [], transaction_receipts := [] }

/-- A store whose composite head stands at block 5. -/
def c2Store : Store :=
  { l1 := [], l2 := [], l1l2Head := some 5, contractsState := [], contracts := [],
    contractCode := [], txs := [] }

/-- A store holding one L1 log at genesis with root zero and no L2 block. -/
def c5Store : Store :=
  { l1 := [{ block_number := 0, global_root := 0, origin := 0 }], l2 := [],
    l1l2Head := none, contractsState := [], contracts := [], contractCode := [], txs := [] }

/-- A genesis block whose root matches the L1 log of `c5Store`. -/
def c5Block : Block :=
  { block_number := 0, block_hash := 9, parent_block_hash := 0, state_root := 0,
    timestamp := 0, transactions := [], transaction_receipts := [] }

/-- The store left behind by a successful `l2_update` of `c5Block` on
`c5Store`. -/
def c5Post : Store :=
  { l1 := [{ block_number := 0, global_root := 0, origin := 0 }],
    l2 := [{ number := 0, hash := 9, root := 0, timestamp := 0 }],
    l1l2Head := some 0, contractsState := [], contracts := [], contractCode := [],
    txs := [(9, 0, [])] }

/-- A store holding one L2 block at genesis with root 100. -/
def c4Store : Store :=
  { l1 := [], l2 := [{ number := 0, hash := 3, root := 100, timestamp := 0 }],
    l1l2Head := none, contractsState := [], contracts := [], contractCode := [], txs := [] }

/-- An L1 log at genesis agreeing with the L2 block of `c4Store`. -/
def c4Log : StateUpdateLog :=
  { block_number := 0, global_root := 100, origin := 0 }

/-- A store with agreeing L2 blocks at heights 0, 1 and 2 and no L1 log. -/
def c1xStore : Store :=
  { l1 := [],
    l2 := [{ number := 0, hash := 10, root := 100, timestamp := 0 },
           { number := 1, hash := 11, root := 101, timestamp := 0 },
           { number := 2, hash := 12, root := 102, timestamp := 0 }],
    l1l2Head := none, contractsState := [], contracts := [], contractCode := [], txs := [] }

/-- A gap-carrying but monotonically increasing L1 update: logs at
heights 0 and 2 only, both agreeing with the blocks of `c1xStore`. -/
def c1xLogs : List StateUpdateLog :=
  [{ block_number := 0, global_root := 100, origin := 0 },
   { block_number := 2, global_root := 102, origin := 0 }]

theorem foldl_l1Insert_l2 (logs : List StateUpdateLog) : ∀ s : Store,
    (logs.foldl l1Insert s).l2 = s.l2 := by
  induction logs with
  | nil => intro s; rfl
  | cons u rest ih => intro s; rw [List.foldl_cons, ih]; rfl

theorem foldl_l1Insert_head (logs : List StateUpdateLog) : ∀ s : Store,
    (logs.foldl l1Insert s).l1l2Head = s.l1l2Head := by
  induction logs with
  | nil => intro s; rfl
  | cons u rest ih => intro s; rw [List.foldl_cons, ih]; rfl

theorem findLog_insertLog_self (l : List StateUpdateLog) (u : StateUpdateLog) :
    findLog (insertLog l u) u.block_number = some u := by
  induction l with
  | nil => simp [insertLog, findLog]
  | cons x xs ih =>
    unfold insertLog
    by_cases h : x.block_number = u.block_number
    · simp [h, findLog]
    · rw [if_neg h]
      unfold findLog
      rw [List.find?_cons_of_neg _ (by simp [h])]
      exact ih

theorem findLog_insertLog_other (l : List StateUpdateLog) (u : StateUpdateLog) (n : Nat)
    (hn : n ≠ u.block_number) : findLog (insertLog l u) n = findLog l n := by
  induction l with
  | nil =>
    show findLog [u] n = findLog [] n
    unfold findLog
    rw [List.find?_cons_of_neg _ (by simp [Ne.symm hn])]
  | cons x xs ih =>
    unfold insertLog
    by_cases h : x.block_number = u.block_number
    · rw [if_pos h]
      unfold findLog
      rw [List.find?_cons_of_neg _ (by simp [Ne.symm hn]),
        List.find?_cons_of_neg _ (by simp [h ▸ Ne.symm hn])]
    · rw [if_neg h]
      unfold findLog
      by_cases hx : x.block_number = n
      · rw [List.find?_cons_of_pos _ (by simp [hx]), List.find?_cons_of_pos _ (by simp [hx])]
      · rw [List.find?_cons_of_neg _ (by simp [hx]), List.find?_cons_of_neg _ (by simp [hx])]
        exact ih

theorem l1Get_foldl_notmem (logs : List StateUpdateLog) : ∀ (s : Store) (n : Nat),
    (∀ u ∈ logs, u.block_number ≠ n) →
    l1Get (logs.foldl l1Insert s) n = l1Get s n := by
  induction logs with
  | nil => intro s n _; rfl
  | cons v rest ih =>
    intro s n hn
    rw [List.foldl_cons, ih (l1Insert s v) n (fun u hu => hn u (List.mem_cons_of_mem v hu))]
    show findLog (insertLog s.l1 v) n = findLog s.l1 n
    exact findLog_insertLog_other _ _ _ (Ne.symm (hn v (List.mem_cons_self v rest)))

theorem l1Get_foldl_mem (logs : List StateUpdateLog) : ∀ (s : Store) (u : StateUpdateLog),
    (logs.map (fun v => v.block_number)).Nodup → u ∈ logs →
    l1Get (logs.foldl l1Insert s) u.block_number = some u := by
  induction logs with
  | nil => intro s u _ hu; cases hu
  | cons v rest ih =>
    intro s u hnd hu
    rw [List.map_cons, List.nodup_cons] at hnd
    rw [List.foldl_cons]
    rcases List.mem_cons.mp hu with rfl | hu2
    · have hnotin : ∀ w ∈ rest, w.block_number ≠ u.block_number := by
        intro w hw he
        exact hnd.1 (he ▸ List.mem_map_of_mem (fun x => x.block_number) hw)
      rw [l1Get_foldl_notmem rest (l1Insert s u) u.block_number hnotin]
      show findLog (insertLog s.l1 u) u.block_number = some u
      exact findLog_insertLog_self _ _
    · exact ih (l1Insert s v) u hnd.2 hu2

theorem findBlock_insert_self (l : List StarknetBlock) (b : StarknetBlock) :
    findBlock (insertBlockEntry l b) b.number = some b := by
  induction l with
  | nil => simp [insertBlockEntry, findBlock]
  | cons x xs ih =>
    unfold insertBlockEntry
    by_cases h : x.number = b.number
    · simp [h, findBlock]
    · rw [if_neg h]
      unfold findBlock
      rw [List.find?_cons_of_neg _ (by simp [h])]
      exact ih

theorem findBlock_insert_other (l : List StarknetBlock) (b : StarknetBlock) (n : Nat)
    (hn : n ≠ b.number) : findBlock (insertBlockEntry l b) n = findBlock l n := by
  induction l with
  | nil =>
    show findBlock [b] n = findBlock [] n
    unfold findBlock
    rw [List.find?_cons_of_neg _ (by simp [Ne.symm hn])]
  | cons x xs ih =>
    unfold insertBlockEntry
    by_cases h : x.number = b.number
    · rw [if_pos h]
      unfold findBlock
      rw [List.find?_cons_of_neg _ (by simp [Ne.symm hn]),
        List.find?_cons_of_neg _ (by simp [h ▸ Ne.symm hn])]
    · rw [if_neg h]
      unfold findBlock
      by_cases hx : x.number = n
      · rw [List.find?_cons_of_pos _ (by simp [hx]), List.find?_cons_of_pos _ (by simp [hx])]
      · rw [List.find?_cons_of_neg _ (by simp [hx]), List.find?_cons_of_neg _ (by simp [hx])]
        exact ih

theorem l2GetRoot_congr (s1 s : Store) (h : s1.l2 = s.l2) (n : Nat) :
    l2GetRoot s1 n = l2GetRoot s n := by
  unfold l2GetRoot l2Get
  rw [h]

theorem l1Get_congr (s1 s : Store) (h : s1.l1 = s.l1) (n : Nat) :
    l1Get s1 n = l1Get s n := by
  unfold l1Get
  rw [h]

theorem l2Get_congr (s1 s : Store) (h : s1.l2 = s.l2) (n : Nat) :
    l2Get s1 n = l2Get s n := by
  unfold l2Get
  rw [h]

theorem reconcileWalk_congr (s1 s : Store) (h : s1.l2 = s.l2) :
    ∀ (logs : List StateUpdateLog) (acc : Option Nat),
    reconcileWalk s1 logs acc = reconcileWalk s logs acc := by
  intro logs
  induction logs with
  | nil => intro acc; rfl
  | cons u rest ih =>
    intro acc
    unfold reconcileWalk
    rw [l2GetRoot_congr s1 s h]
    cases l2GetRoot s u.block_number with
    | none => rfl
    | some r =>
      by_cases hr : r = u.global_root
      · simp only [if_pos hr]
        exact ih (some u.block_number)
      · simp only [if_neg hr]

theorem agreeLogB_iff (s : Store) (u : StateUpdateLog) :
    agreeLogB s u = true ↔ l2GetRoot s u.block_number = some u.global_root := by
  unfold agreeLogB
  exact beq_iff_eq

theorem reconcileWalk_cons_pos (s : Store) (u : StateUpdateLog) (rest : List StateUpdateLog)
    (acc : Option Nat) (ha : agreeLogB s u = true) :
    reconcileWalk s (u :: rest) acc = reconcileWalk s rest (some u.block_number) := by
  have hroot := (agreeLogB_iff s u).mp ha
  show (match l2GetRoot s u.block_number with
        | some r => if r = u.global_root then reconcileWalk s rest (some u.block_number) else acc
        | none => acc) = reconcileWalk s rest (some u.block_number)
  rw [hroot]
  simp

theorem reconcileWalk_cons_neg (s : Store) (u : StateUpdateLog) (rest : List StateUpdateLog)
    (acc : Option Nat) (ha : agreeLogB s u = false) :
    reconcileWalk s (u :: rest) acc = acc := by
  unfold reconcileWalk
  cases hroot : l2GetRoot s u.block_number with
  | none => rfl
  | some r =>
    have hr : ¬ r = u.global_root := by
      intro he
      unfold agreeLogB at ha
      rw [hroot, he] at ha
      simp at ha
    simp [hr]

theorem reconcileWalk_eq_takeWhile (s : Store) :
    ∀ (logs : List StateUpdateLog) (acc : Option Nat),
    reconcileWalk s logs acc =
      match lastBn ((logs.takeWhile (agreeLogB s)).map (fun v => v.block_number)) with
      | some nh => some nh
      | none => acc := by
  intro logs
  induction logs with
  | nil => intro acc; rfl
  | cons u rest ih =>
    intro acc
    by_cases ha : agreeLogB s u = true
    · rw [List.takeWhile_cons_of_pos ha, reconcileWalk_cons_pos s u rest acc ha,
        ih (some u.block_number), List.map_cons]
      cases hL : lastBn ((rest.takeWhile (agreeLogB s)).map (fun v => v.block_number)) with
      | some y => simp [lastBn, hL]
      | none => simp [lastBn, hL]
    · rw [List.takeWhile_cons_of_neg (by simpa using ha),
        reconcileWalk_cons_neg s u rest acc (by simpa using ha)]
      rfl

theorem consecutiveFrom_parts (f : Nat) (u : StateUpdateLog) (rest : List StateUpdateLog)
    (hc : consecutiveFrom f (u :: rest) = true) :
    u.block_number = f ∧ consecutiveFrom (f + 1) rest = true := by
  unfold consecutiveFrom at hc
  rcases Bool.and_eq_true_iff.mp hc with ⟨h1, h2⟩
  exact ⟨by simpa using h1, h2⟩

theorem consecutiveFrom_ge : ∀ (logs : List StateUpdateLog) (f : Nat),
    consecutiveFrom f logs = true → ∀ u ∈ logs, f ≤ u.block_number := by
  intro logs
  induction logs with
  | nil => intro f _ u hu; cases hu
  | cons v rest ih =>
    intro f hc u hu
    rcases consecutiveFrom_parts f v rest hc with ⟨hbn, hrest⟩
    rcases List.mem_cons.mp hu with rfl | hu2
    · exact le_of_eq hbn.symm
    · exact Nat.le_of_succ_le (ih (f + 1) hrest u hu2)

theorem consecutiveFrom_nodup : ∀ (logs : List StateUpdateLog) (f : Nat),
    consecutiveFrom f logs = true → (logs.map (fun v => v.block_number)).Nodup := by
  intro logs
  induction logs with
  | nil => intro f _; simp
  | cons v rest ih =>
    intro f hc
    rcases consecutiveFrom_parts f v rest hc with ⟨hbn, hrest⟩
    rw [List.map_cons, List.nodup_cons]
    refine ⟨?_, ih (f + 1) hrest⟩
    intro hmem
    rcases List.mem_map.mp hmem with ⟨w, hw, hwbn⟩
    have := consecutiveFrom_ge rest (f + 1) hrest w hw
    omega

theorem reconcileWalk_covers (s : Store) :
    ∀ (logs : List StateUpdateLog) (f : Nat) (acc : Option Nat) (N : Nat),
    consecutiveFrom f logs = true →
    reconcileWalk s logs acc = some N →
    acc = some N ∨ (f ≤ N ∧ ∀ h, f ≤ h → h ≤ N →
      ∃ u, u ∈ logs ∧ u.block_number = h ∧ l2GetRoot s h = some u.global_root) := by
  intro logs
  induction logs with
  | nil => intro f acc N _ hw; exact Or.inl hw
  | cons u rest ih =>
    intro f acc N hc hw
    rcases consecutiveFrom_parts f u rest hc with ⟨hbn, hrest⟩
    by_cases ha : agreeLogB s u = true
    · rw [reconcileWalk_cons_pos s u rest acc ha] at hw
      have hragree : l2GetRoot s u.block_number = some u.global_root :=
        (agreeLogB_iff s u).mp ha
      rcases ih (f + 1) (some u.block_number) N hrest hw with heq | ⟨hfN, hcov⟩
      · have hN : u.block_number = N := Option.some.inj heq
        refine Or.inr ⟨by omega, ?_⟩
        intro h hfh hhN
        refine ⟨u, List.mem_cons_self u rest, by omega, ?_⟩
        have hh : h = u.block_number := by omega
        rw [hh]
        exact hragree
      · refine Or.inr ⟨by omega, ?_⟩
        intro h hfh hhN
        rcases Nat.eq_or_lt_of_le hfh with hhf | hlt
        · refine ⟨u, List.mem_cons_self u rest, by omega, ?_⟩
          have hh : h = u.block_number := by omega
          rw [hh]
          exact hragree
        · rcases hcov h (by omega) hhN with ⟨w, hw1, hw2, hw3⟩
          exact ⟨w, List.mem_cons_of_mem u hw1, hw2, hw3⟩
    · rw [reconcileWalk_cons_neg s u rest acc (by simpa using ha)] at hw
      exact Or.inl hw

theorem matchThrough_iff (s : Store) (n : Nat) :
    matchThrough s n = true ↔ ∀ h, h ≤ n → agreeAt s h = true := by
  unfold matchThrough
  rw [List.all_eq_true]
  constructor
  · intro ha h hh
    exact ha h (List.mem_range.mpr (Nat.lt_succ_of_le hh))
  · intro ha h hh
    exact ha h (Nat.lt_succ_iff.mp (List.mem_range.mp hh))

theorem agreeAt_of (s : Store) (h : Nat) (b : StarknetBlock) (u : StateUpdateLog)
    (hb : l2Get s h = some b) (hu : l1Get s h = some u) (hr : b.root = u.global_root) :
    agreeAt s h = true := by
  unfold agreeAt
  rw [hb, hu]
  simpa using hr

theorem agreeAt_congr (s1 s : Store) (h : Nat)
    (h1 : l1Get s1 h = l1Get s h) (h2 : l2Get s1 h = l2Get s h) :
    agreeAt s1 h = agreeAt s h := by
  unfold agreeAt
  rw [h1, h2]

theorem l2Insert_l1 (s : Store) (b : StarknetBlock) : (l2Insert s b).l1 = s.l1 := rfl

theorem l2Insert_l2 (s : Store) (b : StarknetBlock) :
    (l2Insert s b).l2 = insertBlockEntry s.l2 b := rfl

theorem l2Insert_head (s : Store) (b : StarknetBlock) : (l2Insert s b).l1l2Head = s.l1l2Head := rfl

theorem txUpsert_l1 (s : Store) (h : Felt) (n : Nat) (d : List (Nat × Nat)) :
    (txUpsert s h n d).l1 = s.l1 := rfl

theorem txUpsert_l2 (s : Store) (h : Felt) (n : Nat) (d : List (Nat × Nat)) :
    (txUpsert s h n d).l2 = s.l2 := rfl

theorem txUpsert_head (s : Store) (h : Felt) (n : Nat) (d : List (Nat × Nat)) :
    (txUpsert s h n d).l1l2Head = s.l1l2Head := rfl

theorem setHead_l1 (s : Store) (h : Option Nat) : (setHead s h).l1 = s.l1 := rfl

theorem setHead_l2 (s : Store) (h : Option Nat) : (setHead s h).l2 = s.l2 := rfl

theorem setHead_head (s : Store) (h : Option Nat) : (setHead s h).l1l2Head = h := rfl

theorem deployLoop_fields (H : Felt → Felt → Felt) :
    ∀ (cs : List DeployedContract) (s : Store) (t : GlobalStateTree),
    (deployLoop H s t cs).1.l1 = s.l1 ∧ (deployLoop H s t cs).1.l2 = s.l2 ∧
    (deployLoop H s t cs).1.l1l2Head = s.l1l2Head ∧
    (deployLoop H s t cs).1.contractCode = s.contractCode ∧
    (deployLoop H s t cs).1.txs = s.txs := by
  intro cs
  induction cs with
  | nil => intro s t; exact ⟨rfl, rfl, rfl, rfl, rfl⟩
  | cons c rest ih =>
    intro s t
    rcases ih (deploy_contract H s t c).1 (deploy_contract H s t c).2 with ⟨h1, h2, h3, h4, h5⟩
    exact ⟨h1, h2, h3, h4, h5⟩

theorem update_starknet_state_frames (H : Felt → Felt → Felt)
    (applyFn : Felt → List (Nat × Felt) → Felt)
    (updCS : ContractUpdate → GlobalStateTree → Felt)
    (s : Store) (d : StateUpdate) :
    (update_starknet_state H applyFn updCS s d).2.l1 = s.l1 ∧
    (update_starknet_state H applyFn updCS s d).2.l2 = s.l2 ∧
    (update_starknet_state H applyFn updCS s d).2.l1l2Head = s.l1l2Head ∧
    (update_starknet_state H applyFn updCS s d).2.contractCode = s.contractCode ∧
    (update_starknet_state H applyFn updCS s d).2.txs = s.txs :=
  deployLoop_fields H d.deployed_contracts s
    (GlobalStateTree.load (match l2Latest s with | some b => b.root | none => 0))

theorem deployLoop_tree (H : Felt → Felt → Felt) :
    ∀ (cs : List DeployedContract) (s : Store) (t : GlobalStateTree),
    (deployLoop H s t cs).2 =
      { root := t.root, writes := t.writes ++ specDeployWrites H cs } := by
  intro cs
  induction cs with
  | nil => intro s t; simp [deployLoop, specDeployWrites]
  | cons c rest ih =>
    intro s t
    rw [show deployLoop H s t (c :: rest)
          = deployLoop H (deploy_contract H s t c).1 (deploy_contract H s t c).2 rest from rfl]
    rw [ih]
    simp [deploy_contract, GlobalStateTree.set, specDeployWrites]

theorem deployLoop_contractsState (H : Felt → Felt → Felt) :
    ∀ (cs : List DeployedContract) (s : Store) (t : GlobalStateTree),
    (deployLoop H s t cs).1.contractsState = specContractsStateRows H s.contractsState cs := by
  intro cs
  induction cs with
  | nil => intro s t; rfl
  | cons c rest ih =>
    intro s t
    rw [show deployLoop H s t (c :: rest)
          = deployLoop H (deploy_contract H s t c).1 (deploy_contract H s t c).2 rest from rfl]
    rw [ih]
    rfl

theorem deployLoop_contracts (H : Felt → Felt → Felt) :
    ∀ (cs : List DeployedContract) (s : Store) (t : GlobalStateTree),
    (deployLoop H s t cs).1.contracts = specContractsRows s.contracts cs := by
  intro cs
  induction cs with
  | nil => intro s t; rfl
  | cons c rest ih =>
    intro s t
    rw [show deployLoop H s t (c :: rest)
          = deployLoop H (deploy_contract H s t c).1 (deploy_contract H s t c).2 rest from rfl]
    rw [ih]
    rfl

theorem l1_update_l1 (s : Store) (logs : List StateUpdateLog) :
    (l1_update s logs).l1 = (logs.foldl l1Insert s).l1 := by
  cases hh : logs.head? with
  | none => simp [l1_update, hh]
  | some u =>
    simp only [l1_update, hh]
    split
    · split <;> rfl
    · rfl

theorem l1_update_l2 (s : Store) (logs : List StateUpdateLog) :
    (l1_update s logs).l2 = s.l2 := by
  have hf := foldl_l1Insert_l2 logs s
  cases hh : logs.head? with
  | none => simpa [l1_update, hh] using hf
  | some u =>
    simp only [l1_update, hh]
    split
    · split <;> exact hf
    · exact hf

theorem l1_update_head_eq (s : Store) (logs : List StateUpdateLog) :
    (l1_update s logs).l1l2Head = specL1ForwardHead s logs := by
  cases hh : logs.head? with
  | none => simp [l1_update, specL1ForwardHead, hh, foldl_l1Insert_head]
  | some u =>
    simp only [l1_update, specL1ForwardHead, hh]
    rw [foldl_l1Insert_head]
    by_cases hexp : u.block_number = expectedNext s.l1l2Head
    · rw [if_pos hexp, if_pos hexp]
      rw [reconcileWalk_congr (logs.foldl l1Insert s) s (foldl_l1Insert_l2 logs s) logs none]
      rw [reconcileWalk_eq_takeWhile]
      cases hL : lastBn ((logs.takeWhile (agreeLogB s)).map (fun v => v.block_number)) with
      | some nh => simp [setHead_head]
      | none => simp [foldl_l1Insert_head]
    · rw [if_neg hexp, if_neg hexp]
      exact foldl_l1Insert_head logs s

theorem l2_update_ok_core (H : Felt → Felt → Felt)
    (applyFn : Felt → List (Nat × Felt) → Felt)
    (updCS : ContractUpdate → GlobalStateTree → Felt)
    (s : Store) (b : Block) (d : StateUpdate) (s' : Store)
    (hok : l2_update H applyFn updCS s b d = Except.ok s') :
    s'.l1 = s.l1 ∧
    l2Get s' b.block_number =
      some { number := b.block_number, hash := b.block_hash,
             root := b.state_root, timestamp := b.timestamp } ∧
    (∀ n, n ≠ b.block_number → l2Get s' n = l2Get s n) ∧
    s'.l1l2Head =
      (if b.block_number = expectedNext s.l1l2Head
          ∧ l1GetRoot s b.block_number = some b.state_root
       then some b.block_number else s.l1l2Head) := by
  rcases update_starknet_state_frames H applyFn updCS s d with ⟨hf1, hf2, hf3, hf4, hf5⟩
  simp only [l2_update] at hok
  split at hok
  · split at hok
    · split at hok
      · rename_i h1 h2 h3
        split at hok
        · rename_i r hr
          split at hok
          · rename_i hreq
            have hs := Except.ok.inj hok
            subst hs
            have e1 : b.block_number = expectedNext s.l1l2Head := by
              have h3c := h3
              simp only [txUpsert_head, l2Insert_head, hf3] at h3c
              exact h3c.symm
            have e2 : l1GetRoot s b.block_number = some b.state_root := by
              have hrc := hr
              simp only [l1GetRoot, l1Get, txUpsert_l1, l2Insert_l1, hf1] at hrc
              have hq : l1GetRoot s b.block_number = some r := hrc
              rw [hq, hreq]
            refine ⟨?_, ?_, ?_, ?_⟩
            · simp only [setHead_l1, txUpsert_l1, l2Insert_l1]
              exact hf1
            · simp only [l2Get, setHead_l2, txUpsert_l2, l2Insert_l2]
              rw [hf2]
              exact findBlock_insert_self s.l2 _
            · intro n hn
              simp only [l2Get, setHead_l2, txUpsert_l2, l2Insert_l2]
              rw [findBlock_insert_other _ _ n hn, hf2]
            · rw [if_pos ⟨e1, e2⟩]
              simp only [setHead_head]
          · rename_i hreq
            have hs := Except.ok.inj hok
            subst hs
            have hrc := hr
            simp only [l1GetRoot, l1Get, txUpsert_l1, l2Insert_l1, hf1] at hrc
            have hcf : ¬(b.block_number = expectedNext s.l1l2Head
                ∧ l1GetRoot s b.block_number = some b.state_root) := by
              rintro ⟨-, hc2⟩
              have hq : l1GetRoot s b.block_number = some r := hrc
              rw [hq] at hc2
              exact hreq (Option.some.inj hc2)
            refine ⟨?_, ?_, ?_, ?_⟩
            · simp only [txUpsert_l1, l2Insert_l1]
              exact hf1
            · simp only [l2Get, txUpsert_l2, l2Insert_l2]
              rw [hf2]
              exact findBlock_insert_self s.l2 _
            · intro n hn
              simp only [l2Get, txUpsert_l2, l2Insert_l2]
              rw [findBlock_insert_other _ _ n hn, hf2]
            · rw [if_neg hcf]
              simp only [txUpsert_head, l2Insert_head]
              exact hf3
        · rename_i hr
          have hs := Except.ok.inj hok
          subst hs
          have hrc := hr
          simp only [l1GetRoot, l1Get, txUpsert_l1, l2Insert_l1, hf1] at hrc
          have hcf : ¬(b.block_number = expectedNext s.l1l2Head
              ∧ l1GetRoot s b.block_number = some b.state_root) := by
            rintro ⟨-, hc2⟩
            have hq : l1GetRoot s b.block_number = none := hrc
            rw [hq] at hc2
            cases hc2
          refine ⟨?_, ?_, ?_, ?_⟩
          · simp only [txUpsert_l1, l2Insert_l1]
            exact hf1
          · simp only [l2Get, txUpsert_l2, l2Insert_l2]
            rw [hf2]
            exact findBlock_insert_self s.l2 _
          · intro n hn
            simp only [l2Get, txUpsert_l2, l2Insert_l2]
            rw [findBlock_insert_other _ _ n hn, hf2]
          · rw [if_neg hcf]
            simp only [txUpsert_head, l2Insert_head]
            exact hf3
      · rename_i h1 h2 h3
        have hs := Except.ok.inj hok
        subst hs
        have h3c : ¬(expectedNext s.l1l2Head = b.block_number) := by
          intro he
          apply h3
          simp only [txUpsert_head, l2Insert_head, hf3]
          exact he
        have hcf : ¬(b.block_number = expectedNext s.l1l2Head
            ∧ l1GetRoot s b.block_number = some b.state_root) := by
          rintro ⟨hc1, -⟩
          exact h3c hc1.symm
        refine ⟨?_, ?_, ?_, ?_⟩
        · simp only [txUpsert_l1, l2Insert_l1]
          exact hf1
        · simp only [l2Get, txUpsert_l2, l2Insert_l2]
          rw [hf2]
          exact findBlock_insert_self s.l2 _
        · intro n hn
          simp only [l2Get, txUpsert_l2, l2Insert_l2]
          rw [findBlock_insert_other _ _ n hn, hf2]
        · rw [if_neg hcf]
          simp only [txUpsert_head, l2Insert_head]
          exact hf3
    · exact Except.noConfusion hok
  · exact Except.noConfusion hok

theorem capLookup_capInsert_self : ∀ (l : List (String × List Nat)) (cap : String) (ps : List Nat),
    capLookup (capInsert l cap ps) cap = some ps := by
  intro l cap ps
  induction l with
  | nil => simp [capInsert, capLookup]
  | cons e rest ih =>
    rcases e with ⟨c, q⟩
    by_cases hc : c = cap
    · simp [capInsert, hc, capLookup]
    · simp [capInsert, hc, capLookup, ih]

theorem capLookup_capInsert_other : ∀ (l : List (String × List Nat)) (cap : String)
    (ps : List Nat) (c2 : String), c2 ≠ cap →
    capLookup (capInsert l cap ps) c2 = capLookup l c2 := by
  intro l cap ps c2 hne
  induction l with
  | nil => simp [capInsert, capLookup, Ne.symm hne]
  | cons e rest ih =>
    rcases e with ⟨c, q⟩
    by_cases hc : c = cap
    · subst hc
      simp [capInsert, capLookup, Ne.symm hne]
    · simp [capInsert, hc, capLookup, ih]

theorem l2_update_error_cases (H : Felt → Felt → Felt)
    (applyFn : Felt → List (Nat × Felt) → Felt)
    (updCS : ContractUpdate → GlobalStateTree → Felt)
    (s : Store) (b : Block) (d : StateUpdate) (e : SyncError)
    (herr : l2_update H applyFn updCS s b d = Except.error e) :
    e = SyncError.rootMismatch ∨ e = SyncError.txReceiptMismatch := by
  simp only [l2_update] at herr
  split at herr
  · split at herr
    · split at herr
      · split at herr
        · split at herr
          · exact Except.noConfusion herr
          · exact Except.noConfusion herr
        · exact Except.noConfusion herr
      · exact Except.noConfusion herr
    · exact Or.inr (Except.error.inj herr).symm
  · exact Or.inl (Except.error.inj herr).symm

/-- C10: calling `l1_update` with an empty update list succeeds (the
transaction commits) and leaves the store unchanged — no L1 log is
inserted and the composite head is not modified, because the reconciler
is skipped when the list has no first element. -/
theorem c10_l1_update_empty_noop : ∀ s : Store, l1_update s [] = s :=
  fun _ => rfl

/-- C2: after any `l1_reorg` or `l2_reorg` with tail `T` the stored
composite head equals the claim's retraction — so it is at most `T - 1`,
is absent when `T = GENESIS`, and is touched exactly when the prior head
was at least `T`. -/
theorem c2_reorg_retraction : ∀ (s : Store) (reorg_tail : Nat),
    (l1_reorg s reorg_tail).l1l2Head = specRetractedHead s.l1l2Head reorg_tail
    ∧ (l2_reorg s reorg_tail).l1l2Head = specRetractedHead s.l1l2Head reorg_tail
    ∧ (∀ n, specRetractedHead s.l1l2Head reorg_tail = some n → n < reorg_tail)
    ∧ (reorg_tail = GENESIS → specRetractedHead s.l1l2Head reorg_tail = none) := by
  intro s reorg_tail
  refine ⟨?_, ?_, ?_, ?_⟩
  · cases hsh : s.l1l2Head with
    | none => simp [l1_reorg, specRetractedHead, hsh]
    | some h0 =>
      by_cases ht : reorg_tail ≤ h0
      · simp [l1_reorg, specRetractedHead, hsh, ht, setHead]
      · simp [l1_reorg, specRetractedHead, hsh, ht]
  · cases hsh : s.l1l2Head with
    | none => simp [l2_reorg, specRetractedHead, hsh]
    | some h0 =>
      by_cases ht : reorg_tail ≤ h0
      · simp [l2_reorg, specRetractedHead, hsh, ht, setHead]
      · simp [l2_reorg, specRetractedHead, hsh, ht]
  · intro n hn
    unfold specRetractedHead at hn
    cases hsh : s.l1l2Head with
    | none => rw [hsh] at hn; simp at hn
    | some h0 =>
      rw [hsh] at hn
      by_cases ht : reorg_tail ≤ h0
      · by_cases hg : reorg_tail = GENESIS
        · simp [ht, hg] at hn
          unfold GENESIS at hn
          omega
        · simp [ht, hg] at hn
          unfold GENESIS at hg
          omega
      · simp [ht] at hn
        omega
  · intro hg
    subst hg
    cases hsh : s.l1l2Head with
    | none => simp [specRetractedHead, hsh]
    | some h0 => simp [specRetractedHead, hsh, GENESIS]

/-- C2 witness: on a store whose head is 5, a reorg with tail 3 retracts
the head to 2, which is below the tail. -/
theorem c2_reorg_retraction_witness :
    (l1_reorg c2Store 3).l1l2Head = specRetractedHead c2Store.l1l2Head 3 ∧ (2 : Nat) < 3 :=
  ⟨(c2_reorg_retraction c2Store 3).1,
   (c2_reorg_retraction c2Store 3).2.2.1 2 (by decide)⟩

/-- C3: a state-root mismatch is fatal and atomic: when the diff's new
root differs from the block's claimed root, `l2_update` returns the
mismatch error, the driver aborts with that error, and the visible store
is unchanged — no block row, transaction data or composite-head change
is committed. -/
theorem c3_root_mismatch_fatal : ∀ (H : Felt → Felt → Felt)
    (applyFn : Felt → List (Nat × Felt) → Felt)
    (updCS : ContractUpdate → GlobalStateTree → Felt)
    (s : Store) (b : Block) (d : StateUpdate),
    (update_starknet_state H applyFn updCS s d).1 ≠ b.state_root →
    l2_update H applyFn updCS s b d = Except.error SyncError.rootMismatch
    ∧ syncStep H applyFn updCS s (SyncEvent.l2 (L2Event.update b d))
        = StepResult.fatal SyncError.rootMismatch
    ∧ stepStore H applyFn updCS s (SyncEvent.l2 (L2Event.update b d)) = s := by
  intro H applyFn updCS s b d hne
  have h1 : l2_update H applyFn updCS s b d = Except.error SyncError.rootMismatch := by
    simp only [l2_update]
    rw [if_neg hne]
  refine ⟨h1, ?_, ?_⟩
  · simp [syncStep, h1]
  · simp [stepStore, syncStep, h1]

/-- C3 witness: on the empty store, a block claiming root 7 against the
empty diff (whose new root is 0) is rejected atomically. -/
theorem c3_root_mismatch_fatal_witness :
    l2_update (fun _ _ => 0) (fun r _ => r) (fun _ _ => 0) emptyStore mismatchBlock
        { deployed_contracts := [], contract_updates := [] }
      = Except.error SyncError.rootMismatch
    ∧ syncStep (fun _ _ => 0) (fun r _ => r) (fun _ _ => 0) emptyStore
        (SyncEvent.l2 (L2Event.update mismatchBlock
          { deployed_contracts := [], contract_updates := [] }))
        = StepResult.fatal SyncError.rootMismatch
    ∧ stepStore (fun _ _ => 0) (fun r _ => r) (fun _ _ => 0) emptyStore
        (SyncEvent.l2 (L2Event.update mismatchBlock
          { deployed_contracts := [], contract_updates := [] }))
        = emptyStore :=
  c3_root_mismatch_fatal (fun _ _ => 0) (fun r _ => r) (fun _ _ => 0) emptyStore
    mismatchBlock { deployed_contracts := [], contract_updates := [] } (by decide)

/-- C6 counterexample: calling `header_stream` with `start = 5`,
`stop = 3` and `reverse = false` issues `Forward` requests even though
`start > stop`, contradicting the claim that the direction follows the
comparison of the bounds. -/
theorem c6_header_request_shape_cx :
    (header_stream_init 5 3 false).2.2 = Direction.forward
    ∧ ¬ (5 : Nat) ≤ 3
    ∧ Direction.forward ≠ Direction.backward := by
  refine ⟨rfl, by decide, by decide⟩

/-- C6 (amended): the direction of the issued requests is `Backward`
exactly when the `reverse` flag is set (independently of how `start` and
`stop` compare), with the traversal beginning at `stop` when reversed;
every request carries `limit = |stop − start|` of the current bounds
with `step = 1`, and the cursor advances by one per header (saturating
at genesis when backward). -/
theorem c6_header_request_shape : ∀ (start stop : Nat) (reverse : Bool),
    (header_stream_init start stop reverse).2.2
      = (if reverse then Direction.backward else Direction.forward)
    ∧ (header_stream_init start stop reverse).1 = (if reverse then stop else start)
    ∧ (header_stream_init start stop reverse).2.1 = (if reverse then start else stop)
    ∧ (∀ (cur stp : Nat) (d : Direction),
        (headerRequest cur stp d).iteration.limit = max cur stp - min cur stp
        ∧ (headerRequest cur stp d).iteration.step = 1
        ∧ (headerRequest cur stp d).iteration.direction = d
        ∧ (headerRequest cur stp d).iteration.start = cur)
    ∧ headerAdvance start Direction.forward = start + 1
    ∧ headerAdvance start Direction.backward = start - 1 := by
  intro start stop reverse
  refine ⟨?_, ?_, ?_, fun cur stp d => ⟨rfl, rfl, rfl, rfl⟩, rfl, rfl⟩ <;>
    cases reverse <;> rfl

/-- C7: the capability cache returns a stored peer set only while the
elapsed time since `last_update` does not exceed the timeout; once the
single shared clock expires, `get` returns `None` for every capability;
and `update` resets the clock and replaces the entry for the updated
capability while leaving other capabilities' entries alone. -/
theorem c7_peer_cache_ttl : ∀ (pc : PeersWithCapability) (now : Nat) (capability : String),
    (pc.timeout < now - pc.last_update →
      PeersWithCapability.get pc now capability = none)
    ∧ (∀ ps, PeersWithCapability.get pc now capability = some ps →
        now - pc.last_update ≤ pc.timeout ∧ capLookup pc.set capability = some ps)
    ∧ (∀ ps,
        (PeersWithCapability.update pc now capability ps).last_update = now
        ∧ capLookup (PeersWithCapability.update pc now capability ps).set capability = some ps
        ∧ (∀ c2, c2 ≠ capability →
            capLookup (PeersWithCapability.update pc now capability ps).set c2
              = capLookup pc.set c2)
        ∧ PeersWithCapability.get (PeersWithCapability.update pc now capability ps)
            now capability = some ps) := by
  intro pc now capability
  refine ⟨?_, ?_, ?_⟩
  · intro hexp
    unfold PeersWithCapability.get
    rw [if_pos hexp]
  · intro ps hget
    unfold PeersWithCapability.get at hget
    by_cases hexp : pc.timeout < now - pc.last_update
    · rw [if_pos hexp] at hget; cases hget
    · rw [if_neg hexp] at hget
      exact ⟨Nat.le_of_not_lt hexp, hget⟩
  · intro ps
    refine ⟨rfl, capLookup_capInsert_self pc.set capability ps, ?_, ?_⟩
    · intro c2 hc2
      exact capLookup_capInsert_other pc.set capability ps c2 hc2
    · unfold PeersWithCapability.get PeersWithCapability.update
      rw [if_neg (by simp)]
      exact capLookup_capInsert_self pc.set capability ps

/-- C7 witness: a cache updated at time 0 with a 60-unit timeout answers
`None` at time 100 for the headers capability. -/
theorem c7_peer_cache_ttl_witness :
    PeersWithCapability.get { set := [("headers", [1, 2])], last_update := 0, timeout := 60 }
      100 "headers" = none :=
  (c7_peer_cache_ttl { set := [("headers", [1, 2])], last_update := 0, timeout := 60 }
    100 "headers").1 (by decide)

/-- C9 counterexample: a state-root mismatch makes the driver return an
error even though the store is healthy, so the driver's `Err` is not
restricted to fatal store corruption. -/
theorem c9_driver_exit_cx :
    syncStep (fun _ _ => 0) (fun r _ => r) (fun _ _ => 0) emptyStore
        (SyncEvent.l2 (L2Event.update mismatchBlock
          { deployed_contracts := [], contract_updates := [] }))
      = StepResult.fatal SyncError.rootMismatch
    ∧ SyncError.rootMismatch ≠ SyncError.storeError :=
  ⟨rfl, by decide⟩

/-- C9 (amended): the sync driver never returns `Ok` — every loop
iteration either continues with a new store or aborts — and besides
fatal store faults (which the pure store model cannot produce) the only
errors it surfaces are the L2-update consistency failures: the
state-root mismatch and the transaction/receipt count mismatch. -/
theorem c9_driver_exit : ∀ (H : Felt → Felt → Felt)
    (applyFn : Felt → List (Nat × Felt) → Felt)
    (updCS : ContractUpdate → GlobalStateTree → Felt)
    (s : Store) (ev : SyncEvent),
    syncStep H applyFn updCS s ev ≠ StepResult.done
    ∧ (∀ e, syncStep H applyFn updCS s ev = StepResult.fatal e →
        e = SyncError.rootMismatch ∨ e = SyncError.txReceiptMismatch) := by
  intro H applyFn updCS s ev
  constructor
  · cases ev with
    | l1 e => cases e <;> simp [syncStep]
    | l2 e =>
      cases e with
      | update b d =>
        simp only [syncStep]
        cases l2_update H applyFn updCS s b d <;> simp
      | reorg t => simp [syncStep]
      | newContract h => simp [syncStep]
      | queryHash n => simp [syncStep]
      | queryContractExistence hs => simp [syncStep]
      | closed => simp [syncStep]
  · intro e he
    cases ev with
    | l1 e1 => cases e1 <;> simp [syncStep] at he
    | l2 e2 =>
      cases e2 with
      | update b d =>
        simp only [syncStep] at he
        cases hres : l2_update H applyFn updCS s b d with
        | ok s1 => rw [hres] at he; cases he
        | error e1 =>
          rw [hres] at he
          have : e1 = e := by
            have := he
            injection this
          exact this ▸ l2_update_error_cases H applyFn updCS s b d e1 hres
      | reorg t => simp [syncStep] at he
      | newContract h => simp [syncStep] at he
      | queryHash n => simp [syncStep] at he
      | queryContractExistence hs => simp [syncStep] at he
      | closed => simp [syncStep] at he

/-- C9 witness: the mismatching update hits the fatal branch with the
root-mismatch error, which is one of the two consistency errors. -/
theorem c9_driver_exit_witness :
    SyncError.rootMismatch = SyncError.rootMismatch
    ∨ SyncError.rootMismatch = SyncError.txReceiptMismatch :=
  (c9_driver_exit (fun _ _ => 0) (fun r _ => r) (fun _ _ => 0) emptyStore
    (SyncEvent.l2 (L2Event.update mismatchBlock
      { deployed_contracts := [], contract_updates := [] }))).2
    SyncError.rootMismatch rfl

/-- C5: a successful `l2_update` advances the composite head to the
inserted block's number exactly when that number equals `expected_next`
(head plus one, or genesis when absent) and the stored L1 root at that
height equals the new block's root; otherwise the head is unchanged. -/
theorem c5_l2_forward_head : ∀ (H : Felt → Felt → Felt)
    (applyFn : Felt → List (Nat × Felt) → Felt)
    (updCS : ContractUpdate → GlobalStateTree → Felt)
    (s : Store) (b : Block) (d : StateUpdate) (s' : Store),
    l2_update H applyFn updCS s b d = Except.ok s' →
    s'.l1l2Head =
      (if b.block_number = expectedNext s.l1l2Head
          ∧ l1GetRoot s b.block_number = some b.state_root
       then some b.block_number else s.l1l2Head) :=
  fun H applyFn updCS s b d s' hok =>
    (l2_update_ok_core H applyFn updCS s b d s' hok).2.2.2

/-- C5 witness: on `c5Store` (L1 log at genesis with root 0, head
absent), the matching genesis block advances the head to 0. -/
theorem c5_l2_forward_head_witness :
    c5Post.l1l2Head =
      (if c5Block.block_number = expectedNext c5Store.l1l2Head
          ∧ l1GetRoot c5Store c5Block.block_number = some c5Block.state_root
       then some c5Block.block_number else c5Store.l1l2Head) :=
  c5_l2_forward_head (fun _ _ => 0) (fun r _ => r) (fun _ _ => 0) c5Store c5Block
    { deployed_contracts := [], contract_updates := [] } c5Post (by rfl)

/-- C8: `update_starknet_state` computes the new root from the latest
stored global root (`ZERO` when no block is stored) by applying the
deploy writes — each `H(class_hash, ZERO)` at its address — before every
contract-update write, returns the root produced by applying the tree,
and upserts every deployed contract into `ContractsStateTable` and
`ContractsTable` in order, leaving the other tables and the head
untouched. -/
theorem c8_state_updater : ∀ (H : Felt → Felt → Felt)
    (applyFn : Felt → List (Nat × Felt) → Felt)
    (updCS : ContractUpdate → GlobalStateTree → Felt)
    (s : Store) (d : StateUpdate),
    (update_starknet_state H applyFn updCS s d).1 = specNewRoot H applyFn updCS s d
    ∧ (update_starknet_state H applyFn updCS s d).2.contractsState
        = specContractsStateRows H s.contractsState d.deployed_contracts
    ∧ (update_starknet_state H applyFn updCS s d).2.contracts
        = specContractsRows s.contracts d.deployed_contracts
    ∧ (update_starknet_state H applyFn updCS s d).2.l1 = s.l1
    ∧ (update_starknet_state H applyFn updCS s d).2.l2 = s.l2
    ∧ (update_starknet_state H applyFn updCS s d).2.l1l2Head = s.l1l2Head := by
  intro H applyFn updCS s d
  rcases update_starknet_state_frames H applyFn updCS s d with ⟨hf1, hf2, hf3, hf4, hf5⟩
  refine ⟨?_, ?_, ?_, hf1, hf2, hf3⟩
  · show GlobalStateTree.apply applyFn
        (updateLoop updCS
          (deployLoop H s
            (GlobalStateTree.load (match l2Latest s with | some b => b.root | none => 0))
            d.deployed_contracts).2
          d.contract_updates)
      = specNewRoot H applyFn updCS s d
    rw [deployLoop_tree]
    simp [GlobalStateTree.load, specNewRoot]
  · exact deployLoop_contractsState H d.deployed_contracts s _
  · exact deployLoop_contracts H d.deployed_contracts s _

/-- C4: `l1_update` stores every inserted log (at distinct heights) in
the one transaction, and its composite-head effect is exactly the
claim's L1-forward reconciliation: the walk runs only when the first
inserted log sits at `expected_next`, keeps the agreeing prefix of the
inserted logs against the stored L2 blocks, stops at the first missing
or differing height, and writes the head only when it advanced; the L2
table is untouched. -/
theorem c4_l1_forward_reconciliation : ∀ (s : Store) (logs : List StateUpdateLog),
    ((logs.map (fun v => v.block_number)).Nodup →
      ∀ u ∈ logs, l1Get (l1_update s logs) u.block_number = some u)
    ∧ (l1_update s logs).l1l2Head = specL1ForwardHead s logs
    ∧ (l1_update s logs).l2 = s.l2 := by
  intro s logs
  refine ⟨?_, l1_update_head_eq s logs, l1_update_l2 s logs⟩
  intro hnd u hu
  have hc : l1Get (l1_update s logs) u.block_number
      = l1Get (logs.foldl l1Insert s) u.block_number :=
    l1Get_congr _ _ (l1_update_l1 s logs) u.block_number
  rw [hc]
  exact l1Get_foldl_mem logs s u hnd hu

/-- C4 witness: inserting one genesis log that agrees with the stored L2
block stores that log at its height. -/
theorem c4_l1_forward_reconciliation_witness :
    l1Get (l1_update c4Store [c4Log]) c4Log.block_number = some c4Log :=
  (c4_l1_forward_reconciliation c4Store [c4Log]).1 (by decide) c4Log (by decide)

/-- C1 counterexample: on a clean store (head absent) with agreeing L2
blocks at heights 0, 1 and 2, the monotonically increasing but
gap-carrying L1 update `[log 0, log 2]` writes the composite head to 2,
yet no L1 log is stored at height 1, so the stored sides do not agree at
every height up to the written head. -/
theorem c1_composite_head_invariant_cx :
    c1xStore.l1l2Head = none
    ∧ (l1_update c1xStore c1xLogs).l1l2Head = some 2
    ∧ (l1_update c1xStore c1xLogs).l1l2Head ≠ c1xStore.l1l2Head
    ∧ agreeAt (l1_update c1xStore c1xLogs) 1 = false
    ∧ matchThrough (l1_update c1xStore c1xLogs) 2 = false := by
  refine ⟨rfl, by decide, by decide, by decide, by decide⟩

/-- C1 (amended): composite-head invariant preservation: on a store whose
present head is backed by agreeing rows at every height up to it, any
`l1_update` whose inserted logs carry consecutive block numbers, and any
successful `l2_update`, that writes the composite head with value `N`
leaves the stored L2 block's root equal to the stored L1 log's
`global_root` at every height from `GENESIS` through `N`. -/
theorem c1_composite_head_invariant : ∀ (H : Felt → Felt → Felt)
    (applyFn : Felt → List (Nat × Felt) → Felt)
    (updCS : ContractUpdate → GlobalStateTree → Felt)
    (s : Store) (logs : List StateUpdateLog) (b : Block) (d : StateUpdate) (N : Nat),
    HeadInv s →
    (logsConsecutive logs = true →
      (l1_update s logs).l1l2Head = some N →
      (l1_update s logs).l1l2Head ≠ s.l1l2Head →
      matchThrough (l1_update s logs) N = true)
    ∧ (∀ s', l2_update H applyFn updCS s b d = Except.ok s' →
        s'.l1l2Head = some N →
        s'.l1l2Head ≠ s.l1l2Head →
        matchThrough s' N = true) := by
  intro H applyFn updCS s logs b d N hinv
  constructor
  · intro hcons hN hne
    have hl1 := l1_update_l1 s logs
    have hl2 := l1_update_l2 s logs
    have hhead := l1_update_head_eq s logs
    cases hh : logs.head? with
    | none =>
      exfalso
      apply hne
      rw [hhead]
      simp [specL1ForwardHead, hh]
    | some u0 =>
      have hcons0 : consecutiveFrom u0.block_number logs = true := by
        cases logs with
        | nil => cases hh
        | cons v rest =>
          have hv : v = u0 := by
            have hv0 := hh
            simp at hv0
            exact hv0
          subst hv
          simpa [logsConsecutive] using hcons
      by_cases hexp : u0.block_number = expectedNext s.l1l2Head
      · rw [hhead] at hN hne
        have hspec : specL1ForwardHead s logs
            = match lastBn ((logs.takeWhile (agreeLogB s)).map (fun v => v.block_number)) with
              | some nh => some nh
              | none => s.l1l2Head := by
          simp [specL1ForwardHead, hh, hexp]
        rw [hspec] at hN hne
        cases hL : lastBn ((logs.takeWhile (agreeLogB s)).map (fun v => v.block_number)) with
        | none =>
          exfalso
          rw [hL] at hne
          exact hne rfl
        | some nh =>
          rw [hL] at hN
          have hnhN : nh = N := Option.some.inj hN
          subst hnhN
          have hwalk : reconcileWalk s logs none = some nh := by
            rw [reconcileWalk_eq_takeWhile, hL]
          rcases reconcileWalk_covers s logs u0.block_number none nh hcons0 hwalk with
            habs | ⟨hfN, hcov⟩
          · cases habs
          · rw [matchThrough_iff]
            intro h hhN
            rcases Nat.lt_or_ge h u0.block_number with hlt | hge
            · cases hsh : s.l1l2Head with
              | none =>
                exfalso
                rw [hsh] at hexp
                simp [expectedNext, GENESIS] at hexp
                omega
              | some o =>
                rw [hsh] at hexp
                have hho : h ≤ o := by
                  simp [expectedNext] at hexp
                  omega
                have hag := (matchThrough_iff s o).mp (hinv o hsh) h hho
                have hg1 : l1Get (l1_update s logs) h = l1Get s h := by
                  rw [l1Get_congr _ _ hl1 h]
                  exact l1Get_foldl_notmem logs s h
                    (fun w hw => by
                      have hwge := consecutiveFrom_ge logs u0.block_number hcons0 w hw
                      omega)
                have hg2 : l2Get (l1_update s logs) h = l2Get s h :=
                  l2Get_congr _ _ hl2 h
                rw [agreeAt_congr _ _ h hg1 hg2]
                exact hag
            · rcases hcov h hge hhN with ⟨w, hwmem, hwbn, hwroot⟩
              have hwroot2 : (l2Get s h).map (fun blk => blk.root) = some w.global_root :=
                hwroot
              rcases Option.map_eq_some'.mp hwroot2 with ⟨blk, hblk, hblkroot⟩
              have hg1 : l1Get (l1_update s logs) h = some w := by
                rw [l1Get_congr _ _ hl1 h, ← hwbn]
                exact l1Get_foldl_mem logs s w
                  (consecutiveFrom_nodup logs u0.block_number hcons0) hwmem
              have hg2 : l2Get (l1_update s logs) h = some blk := by
                rw [l2Get_congr _ _ hl2 h]
                exact hblk
              exact agreeAt_of _ h blk w hg2 hg1 hblkroot
      · exfalso
        apply hne
        rw [hhead]
        simp [specL1ForwardHead, hh, hexp]
  · intro s' hok hN hne
    rcases l2_update_ok_core H applyFn updCS s b d s' hok with ⟨hc1, hc2, hc3, hc4⟩
    by_cases hcond : b.block_number = expectedNext s.l1l2Head
        ∧ l1GetRoot s b.block_number = some b.state_root
    · rw [hc4, if_pos hcond] at hN
      have hNbn : b.block_number = N := Option.some.inj hN
      rw [matchThrough_iff]
      intro h hhN
      rcases Nat.lt_or_ge h b.block_number with hlt | hge
      · have hexp := hcond.1
        cases hsh : s.l1l2Head with
        | none =>
          exfalso
          rw [hsh] at hexp
          simp [expectedNext, GENESIS] at hexp
          omega
        | some o =>
          rw [hsh] at hexp
          have hho : h ≤ o := by
            simp [expectedNext] at hexp
            omega
          have hag := (matchThrough_iff s o).mp (hinv o hsh) h hho
          have hg1 : l1Get s' h = l1Get s h := l1Get_congr _ _ hc1 h
          have hg2 : l2Get s' h = l2Get s h := hc3 h (by omega)
          rw [agreeAt_congr _ _ h hg1 hg2]
          exact hag
      · have hh : h = b.block_number := by omega
        rw [hh]
        have hroot2 : (l1Get s b.block_number).map (fun v => v.global_root)
            = some b.state_root := hcond.2
        rcases Option.map_eq_some'.mp hroot2 with ⟨w, hw, hwroot⟩
        refine agreeAt_of s' b.block_number _ w hc2 ?_ ?_
        · rw [l1Get_congr _ _ hc1 b.block_number]
          exact hw
        · exact hwroot.symm
    · exfalso
      apply hne
      rw [hc4, if_neg hcond]

/-- C1 witness: a single agreeing genesis log writes the head to 0 and
the stored sides agree through height 0. -/
theorem c1_composite_head_invariant_witness :
    matchThrough (l1_update c4Store [c4Log]) 0 = true :=
  (c1_composite_head_invariant (fun _ _ => 0) (fun r _ => r) (fun _ _ => 0)
    c4Store [c4Log] mismatchBlock { deployed_contracts := [], contract_updates := [] } 0
    (fun n hn => Option.noConfusion hn)).1 (by decide) (by decide) (by decide)
